/-
Verification of the RAG chat application (text utilities, index builder,
retriever, chatbot and session handling) against its specification.

The Python sources are shallowly embedded:
  * `app/utils.py`        : clean_text, chunk_text, load_documents,
                            format_chat_history
  * `app/retriever.py`    : DocumentRetriever.__init__ path resolution and
                            file-existence checks, DocumentRetriever.retrieve
  * `src/build_index.py`  : VectorIndexBuilder.build_index
  * `app/chatbot.py`      : RAGChatbot.chat history update
  * `api/main.py`         : the session map, get_chatbot, clear_session

Strings are lists of characters; regular expressions are replaced by the
explicit character traversals they denote; file I/O is modelled by passing
each file's full content alongside its path; the embedding model, the
normalisation of float vectors and the FAISS search are abstract functions
(their outputs are opaque data the Python code never inspects).
-/
import Mathlib

namespace RAGApp

/-! ### Characters and Python string helpers (`app/utils.py` building blocks)

`pySpace` models Python's `\s` (ASCII part: space, tab, newline, carriage
return, vertical tab, form feed); `isWordChar` models `\w` (ASCII part:
alphanumerics and underscore).  The claims under study only involve ASCII
inputs, so the unicode extensions of `\s` and `\w` are not modelled. -/

def pySpace (c : Char) : Bool :=
  c == ' ' || c == '\t' || c == '\n' || c == '\r' || c == '\x0b' || c == '\x0c'

def isWordChar (c : Char) : Bool :=
  c.isAlphanum || c == '_'

def punctChar (c : Char) : Bool :=
  c == '.' || c == ',' || c == '!' || c == '?' || c == ';' || c == ':'

/-- The characters kept by `re.sub(r'[^\w\s.,!?;:]', '', text)`. -/
def keptChar (c : Char) : Bool :=
  isWordChar c || pySpace c || punctChar c

/-- `re.sub(r'\s+', ' ', text)` on a character list: each maximal run of
whitespace becomes a single space.  The boolean flag records whether the
previously emitted character position was inside a whitespace run. -/
def collapseWsAux : List Char → Bool → List Char
  | [], _ => []
  | c :: cs, prev =>
    if pySpace c then
      if prev then collapseWsAux cs true else ' ' :: collapseWsAux cs true
    else c :: collapseWsAux cs false

def collapseWs (l : List Char) : List Char := collapseWsAux l false

/-- Python `str.strip()`: drop leading and trailing whitespace. -/
def pyStrip (l : List Char) : List Char :=
  ((l.dropWhile pySpace).reverse.dropWhile pySpace).reverse

/-- `clean_text` from `app/utils.py`:
whitespace runs collapsed to a single space, characters outside
`[\w\s.,!?;:]` removed, then both ends stripped. -/
def clean_text (s : String) : String :=
  String.mk (pyStrip ((collapseWs s.data).filter keptChar))

/-- Accumulator pass for `pySplit`: `acc` holds the characters of the
word currently being read, in reverse. -/
def splitWordsAux : List Char → List Char → List String
  | [], acc => if acc = [] then [] else [String.mk acc.reverse]
  | c :: cs, acc =>
    if pySpace c then
      (if acc = [] then [] else [String.mk acc.reverse]) ++ splitWordsAux cs []
    else splitWordsAux cs (c :: acc)

/-- Python `str.split()` with no argument: the maximal runs of
non-whitespace characters, in order; no empty pieces. -/
def pySplit (s : String) : List String :=
  splitWordsAux s.data []

/-! ### `chunk_text` (`app/utils.py`, lines 13-28)

```python
words = text.split()
if len(words) <= chunk_size:
    return [' '.join(words)]
for i in range(0, len(words), chunk_size - overlap):
    chunk = ' '.join(words[i:i + chunk_size])
    chunks.append(chunk)
    if i + chunk_size >= len(words):
        break
return chunks
```

The loop is embedded as fuel-indexed structural recursion over the start
index `i`; `words.length` units of fuel suffice because `i` grows by
`step ≥ 1` on every iteration and the loop stops as soon as
`len(words) ≤ i + chunk_size`.  The word windows `words[i:i+chunk_size]`
are produced first and the per-chunk `' '.join` applied afterwards, which
yields the same list of strings. -/

def chunkLoop (words : List String) (cs step : Nat) : Nat → Nat → List (List String)
  | 0, _ => []
  | fuel + 1, i =>
    if i < words.length then
      if words.length ≤ i + cs then [(words.drop i).take cs]
      else (words.drop i).take cs :: chunkLoop words cs step fuel (i + step)
    else []

/-- The word windows underlying `chunk_text`'s chunks. -/
def chunk_text_words (text : String) (chunk_size overlap : Nat) : List (List String) :=
  let words := pySplit text
  if words.length ≤ chunk_size then [words]
  else chunkLoop words chunk_size (chunk_size - overlap) words.length 0

/-- `chunk_text` from `app/utils.py` (defaults `chunk_size=512`, `overlap=50`). -/
def chunk_text (text : String) (chunk_size : Nat := 512) (overlap : Nat := 50) : List String :=
  (chunk_text_words text chunk_size overlap).map (String.intercalate " ")

/-! ### Documents and the offline index builder
(`app/utils.py` `load_documents`, `src/build_index.py` `build_index`) -/

/-- A metadata entry `{'content': ..., 'source': ..., 'chunk_id': ...}`
produced by `load_documents`. -/
structure DocMeta where
  content : String
  source : String
  chunk_id : Nat
deriving Repr, DecidableEq

/-- The metadata entries `load_documents` produces for one file: the
file's content cleaned and chunked, each chunk paired with the file path
and its 0-based position as `chunk_id`. -/
def fileEntries (path content : String) : List DocMeta :=
  (chunk_text (clean_text content) 512 50).enum.map fun ic =>
    { content := ic.2, source := path, chunk_id := ic.1 }

/-- `load_documents` from `app/utils.py`.  Reading a file is modelled by
pairing each path with the file's full content, so an input element is
`(file_path, content-of-that-file)`. -/
def load_documents (files : List (String × String)) : List DocMeta :=
  files.flatMap fun fc => fileEntries fc.1 fc.2

/-- `os.path.join(data_dir, file)` for a plain relative file name. -/
def pathJoin (dir name : String) : String := dir ++ "/" ++ name

/-- The file-selection phase of `VectorIndexBuilder.build_index`: take the
directory listing (names paired with file contents), keep the names ending
in `'.txt'`, join them with the directory and load them. -/
def buildDocs (dataDir : String) (listing : List (String × String)) : List DocMeta :=
  load_documents ((listing.filter fun fc => fc.1.endsWith ".txt").map
    fun fc => (pathJoin dataDir fc.1, fc.2))

/-- The index-building phase of `VectorIndexBuilder.build_index`:
`texts = [doc['content'] for doc in documents]`,
`embeddings = model.encode(texts)`, `faiss.normalize_L2(embeddings)`,
`index.add(embeddings)`, returning `(index, documents)`.  The embedding
model and the L2 normalisation are abstract functions into an abstract
vector type `V`; the flat index is the list of its stored vectors. -/
def build_index_core {V : Type} (embed : String → V) (normalizeL2 : V → V)
    (documents : List DocMeta) : List V × List DocMeta :=
  (((documents.map fun d => d.content).map embed).map normalizeL2, documents)

/-! ### `DocumentRetriever` (`app/retriever.py`)

File existence on disk is an abstract predicate `exists? : String → Bool`;
`dirname(__file__)` is the abstract string `fileDir`. -/

/-- The candidate index paths tried by `DocumentRetriever.__init__`. -/
def possibleIndexPaths (fileDir : String) : List String :=
  ["embeddings/faiss_index.bin", "../embeddings/faiss_index.bin",
   "./embeddings/faiss_index.bin", fileDir ++ "/../embeddings/faiss_index.bin"]

/-- The candidate metadata paths tried by `DocumentRetriever.__init__`. -/
def possibleDocPaths (fileDir : String) : List String :=
  ["embeddings/faiss_index.pkl", "../embeddings/faiss_index.pkl",
   "./embeddings/faiss_index.pkl", fileDir ++ "/../embeddings/faiss_index.pkl"]

/-- `next((p for p in paths if os.path.exists(p)), paths[0])`. -/
def resolvePath (exists? : String → Bool) (cands : List String) : String :=
  match cands.find? exists? with
  | some p => p
  | none => cands.headD ""

/-- The two `FileNotFoundError` cases of `DocumentRetriever.__init__`. -/
inductive InitError where
  | indexNotFound (path : String)
  | docsNotFound (path : String)
deriving Repr, DecidableEq

/-- The index path `DocumentRetriever.__init__` ends up using: the
explicit `index_path` argument if given, otherwise the candidate scan. -/
def resolvedIndexPath (exists? : String → Bool) (fileDir : String)
    (index_path : Option String) : String :=
  match index_path with
  | some p => p
  | none => resolvePath exists? (possibleIndexPaths fileDir)

/-- The metadata path `DocumentRetriever.__init__` ends up using. -/
def resolvedDocPath (exists? : String → Bool) (fileDir : String)
    (doc_path : Option String) : String :=
  match doc_path with
  | some p => p
  | none => resolvePath exists? (possibleDocPaths fileDir)

/-- The loading phase of `DocumentRetriever.__init__`: resolve the index
path (the explicit argument wins over the candidate scan), load it if it
exists and raise `FileNotFoundError` otherwise, then do the same for the
metadata path.  Loading itself is modelled by an abstract read of each
path's contents (`readIndex`, `readDocs`). -/
def retrieverInit {I : Type} (exists? : String → Bool) (fileDir : String)
    (readIndex : String → I) (readDocs : String → List DocMeta)
    (index_path doc_path : Option String) : Except InitError (I × List DocMeta) :=
  let ip := resolvedIndexPath exists? fileDir index_path
  if exists? ip then
    let dp := resolvedDocPath exists? fileDir doc_path
    if exists? dp then .ok (readIndex ip, readDocs dp)
    else .error (.docsNotFound dp)
  else .error (.indexNotFound ip)

/-- A retrieved result: a copy of a metadata entry with a `'score'` field
added.  Scores are opaque pass-through values of type `S` (floats in the
Python code, never inspected by it). -/
structure Retrieved (S : Type) where
  doc : DocMeta
  score : S
deriving Repr, DecidableEq

/-- Python list indexing `l[i]` for a possibly negative `i`:
`l[i]` is `l[len l + i]` when `i < 0`; out of range raises `IndexError`
(`none`). -/
def pyGet {α : Type} (l : List α) (i : Int) : Option α :=
  if 0 ≤ i then l.get? i.toNat
  else if (-i) ≤ (l.length : Int) then l.get? (l.length - (-i).toNat)
  else none

/-- The result-collection loop of `DocumentRetriever.retrieve`:

```python
for score, idx in zip(scores[0], indices[0]):
    if idx < len(self.documents):
        doc = self.documents[idx].copy()
        doc['score'] = float(score)
        results.append(doc)
```

The FAISS call `index.search` is abstract: `searchOut` is the list
`zip(scores[0], indices[0])` it returned (indices are machine integers,
`-1` being FAISS's padding value for absent neighbours).  An out-of-range
list access raises `IndexError`, modelled by `none`. -/
def retrieveFrom {S : Type} (documents : List DocMeta) :
    List (S × Int) → Option (List (Retrieved S))
  | [] => some []
  | (score, idx) :: rest =>
    if idx < (documents.length : Int) then
      match pyGet documents idx with
      | none => none
      | some d => (retrieveFrom documents rest).map fun rs =>
          { doc := d, score := score } :: rs
    else retrieveFrom documents rest

/-! ### Chat history (`app/utils.py` `format_chat_history`,
`app/chatbot.py` `RAGChatbot.chat`) -/

/-- A history entry `{"role": ..., "content": ...}`. -/
structure Msg where
  role : String
  content : String
deriving Repr, DecidableEq

/-- `format_chat_history` from `app/utils.py`: empty history gives `""`;
otherwise the last six messages (`history[-6:]`) are rendered one per line,
prefixed by the role, and joined with newlines. -/
def format_chat_history (history : List Msg) : String :=
  if history = [] then ""
  else String.intercalate "\n"
    ((history.drop (history.length - 6)).map fun msg =>
      (if msg.role = "user" then "User: " else "Assistant: ") ++ msg.content)

/-- The outcome of `self.model.generate_content(prompt)` followed by
`response.text`: either an answer string or an exception message. -/
abbrev GenOutcome := Except String String

/-- The history update and return value of `RAGChatbot.chat`: on success
the answer is returned and the user query and assistant answer are
appended to the history; on an exception the error string is returned and
the history is left as it was (both appends sit after the generation call
inside the `try` block). -/
def chatStep (query : String) (gen : GenOutcome) (history : List Msg) :
    String × List Msg :=
  match gen with
  | .ok answer =>
    (answer, history ++ [{ role := "user", content := query },
                         { role := "assistant", content := answer }])
  | .error e => ("Error generating response: " ++ e, history)

/-! ### Sessions (`api/main.py`)

`sessions: dict[str, RAGChatbot] = {}` keyed by session id, plus the
default `chatbot_instance`; each `RAGChatbot` carries its own history
list.  The dict is embedded as an association list in insertion order. -/

/-- The mutable server state the chat endpoints touch. -/
structure ServerState where
  defaultHistory : List Msg
  sessions : List (String × List Msg)
deriving Repr, DecidableEq

def lookupSession (st : ServerState) (sid : String) : Option (List Msg) :=
  (st.sessions.find? fun p => p.1 = sid).map Prod.snd

/-- `get_chatbot` (`api/main.py`): a truthy `session_id` (a non-empty
string) selects the session's chatbot, creating a fresh one on first use;
`None` — and, `if session_id:` being a truthiness test, also the empty
string — selects the default `chatbot_instance`. -/
def getChatbotHistory (st : ServerState) (sid : Option String) :
    List Msg × ServerState :=
  match sid with
  | some s =>
    if s ≠ "" then
      match lookupSession st s with
      | some h => (h, st)
      | none => ([], { st with sessions := st.sessions ++ [(s, [])] })
    else (st.defaultHistory, st)
  | none => (st.defaultHistory, st)

def writeHistory (st : ServerState) (sid : Option String) (h : List Msg) :
    ServerState :=
  match sid with
  | some s =>
    if s ≠ "" then
      { st with sessions := st.sessions.map fun p => if p.1 = s then (p.1, h) else p }
    else { st with defaultHistory := h }
  | none => { st with defaultHistory := h }

/-- The `/chat` endpoint's effect on server state: pick the chatbot for the
session id via `get_chatbot`, run `chatbot.chat(query)` (whose generation
outcome is `gen`), and store the updated history back in that chatbot. -/
def processChat (sid : Option String) (query : String) (gen : GenOutcome)
    (st : ServerState) : String × ServerState :=
  let (h, st') := getChatbotHistory st sid
  let (reply, h') := chatStep query gen h
  (reply, writeHistory st' sid h')

/-- The `DELETE /chat/session/{session_id}` endpoint: if the session
exists, `sessions[session_id].clear_history()`; otherwise a 404 with no
state change. -/
def clearSession (sid : String) (st : ServerState) : ServerState :=
  if (lookupSession st sid).isSome then
    { st with sessions := st.sessions.map fun p => if p.1 = sid then (p.1, []) else p }
  else st

/-! ## Theorems -/

/-- C9: if response generation raises, `RAGChatbot.chat` returns a string
beginning `'Error generating response:'` and leaves the history unchanged;
on success it appends exactly the user query and the assistant answer. -/
theorem chatStep_history_update (query : String) (history : List Msg) :
    (∀ e, (∃ rest, (chatStep query (.error e) history).1 =
              "Error generating response:" ++ rest) ∧
          (chatStep query (.error e) history).2 = history) ∧
    (∀ answer, (chatStep query (.ok answer) history).1 = answer ∧
          (chatStep query (.ok answer) history).2 =
            history ++ [{ role := "user", content := query },
                        { role := "assistant", content := answer }]) := by
  refine ⟨fun e => ⟨⟨" " ++ e, ?_⟩, rfl⟩, fun answer => ⟨rfl, rfl⟩⟩
  show "Error generating response: " ++ e = "Error generating response:" ++ (" " ++ e)
  rw [← String.append_assoc]
  exact congrArg (fun s => s ++ e) (by decide)

/-- C5: `DocumentRetriever.__init__` raises `FileNotFoundError` exactly
when the resolved index file or the resolved metadata file does not exist;
there is no other failure outcome in index loading. -/
theorem retrieverInit_error_iff {I : Type} (exists? : String → Bool) (fileDir : String)
    (readIndex : String → I) (readDocs : String → List DocMeta)
    (index_path doc_path : Option String) :
    (∃ e, retrieverInit exists? fileDir readIndex readDocs index_path doc_path =
        .error e) ↔
      (exists? (resolvedIndexPath exists? fileDir index_path) = false ∨
       exists? (resolvedDocPath exists? fileDir doc_path) = false) := by
  unfold retrieverInit
  rcases h1 : exists? (resolvedIndexPath exists? fileDir index_path) with _ | _ <;>
    rcases h2 : exists? (resolvedDocPath exists? fileDir doc_path) with _ | _ <;>
      simp [h1, h2]

/-- C4: after `build_index`, the flat index holds one vector per metadata
entry, vector `i` being the normalised embedding of entry `i`'s `content`;
consequently every in-range search position names a metadata entry. -/
theorem build_index_parallel {V : Type} (embed : String → V) (normalizeL2 : V → V)
    (documents : List DocMeta) :
    (build_index_core embed normalizeL2 documents).1.length =
      (build_index_core embed normalizeL2 documents).2.length ∧
    (∀ i (h1 : i < (build_index_core embed normalizeL2 documents).1.length)
       (h2 : i < (build_index_core embed normalizeL2 documents).2.length),
      (build_index_core embed normalizeL2 documents).1.get ⟨i, h1⟩ =
        normalizeL2 (embed
          (((build_index_core embed normalizeL2 documents).2.get ⟨i, h2⟩).content))) ∧
    (∀ idx : Int, 0 ≤ idx →
      idx < ((build_index_core embed normalizeL2 documents).1.length : Int) →
      ∃ d, pyGet (build_index_core embed normalizeL2 documents).2 idx = some d) := by
  refine ⟨by simp [build_index_core], fun i h1 h2 => ?_, fun idx h0 hlt => ?_⟩
  · simp [build_index_core]
  · have hlen : (build_index_core embed normalizeL2 documents).1.length =
        documents.length := by simp [build_index_core]
    have hd : idx.toNat < documents.length := by
      omega
    refine ⟨documents.get ⟨idx.toNat, hd⟩, ?_⟩
    simp only [pyGet, build_index_core, if_pos h0]
    exact List.get?_eq_get hd

/-- Python indexing succeeds on every in-range index (negative indices
counting from the end). -/
theorem pyGet_eq_some {α : Type} (l : List α) (i : Int)
    (hlo : -(l.length : Int) ≤ i) (hhi : i < (l.length : Int)) :
    ∃ a, pyGet l i = some a := by
  unfold pyGet
  by_cases h0 : 0 ≤ i
  · have : i.toNat < l.length := by omega
    exact ⟨l.get ⟨i.toNat, this⟩, by rw [if_pos h0]; exact List.get?_eq_get this⟩
  · have hneg : ¬ (0 : Int) ≤ i := h0
    have h1 : (-i) ≤ (l.length : Int) := by omega
    have h2 : 1 ≤ (-i).toNat := by omega
    have h3 : (-i).toNat ≤ l.length := by omega
    have h4 : l.length - (-i).toNat < l.length := by omega
    exact ⟨l.get ⟨l.length - (-i).toNat, h4⟩, by
      rw [if_neg hneg, if_pos (by exact_mod_cast h1)]
      exact List.get?_eq_get h4⟩

/-- Retrieval helper: the collected results are exactly, in order, one
result per returned search position that names a metadata entry (Python
index semantics), carrying that entry and that position's score; positions
that name no entry contribute nothing. -/
theorem retrieveFrom_forall₂ {S : Type} (documents : List DocMeta)
    (searchOut : List (S × Int))
    (hidx : ∀ p ∈ searchOut, -(documents.length : Int) ≤ p.2) :
    ∃ rs, retrieveFrom documents searchOut = some rs ∧
      List.Forall₂ (fun (p : S × Int) (r : Retrieved S) =>
          pyGet documents p.2 = some r.doc ∧ r.score = p.1)
        (searchOut.filter fun p => p.2 < (documents.length : Int)) rs := by
  induction searchOut with
  | nil => exact ⟨[], rfl, by simp⟩
  | cons p rest ih =>
    obtain ⟨rs, hrs, hfa⟩ := ih (fun q hq => hidx q (List.mem_cons_of_mem p hq))
    by_cases hlt : p.2 < (documents.length : Int)
    · obtain ⟨d, hd⟩ := pyGet_eq_some documents p.2 (hidx p (List.mem_cons_self p rest)) hlt
      refine ⟨{ doc := d, score := p.1 } :: rs, ?_, ?_⟩
      · show retrieveFrom documents ((p.1, p.2) :: rest) = _
        rw [retrieveFrom, if_pos hlt, hd, hrs]
        rfl
      · rw [List.filter_cons_of_pos (by exact decide_eq_true hlt)]
        exact List.Forall₂.cons ⟨hd, rfl⟩ hfa
    · refine ⟨rs, ?_, ?_⟩
      · show retrieveFrom documents ((p.1, p.2) :: rest) = _
        rw [retrieveFrom, if_neg hlt]
        exact hrs
      · rw [List.filter_cons_of_neg (by simpa using hlt)]
        exact hfa

/-- C1: for any query and `k ≥ 1`, `retrieve` raises no error and returns
at most `k` results; in order, the results are exactly the copies (with
score attached) of the metadata entries named by the returned search
positions, and returned positions naming no entry produce no result. -/
theorem retrieve_spec {S : Type} (documents : List DocMeta)
    (searchOut : List (S × Int)) (k : Nat)
    (hk : searchOut.length ≤ k)
    (hidx : ∀ p ∈ searchOut, -(documents.length : Int) ≤ p.2) :
    ∃ rs, retrieveFrom documents searchOut = some rs ∧
      rs.length ≤ k ∧
      List.Forall₂ (fun (p : S × Int) (r : Retrieved S) =>
          pyGet documents p.2 = some r.doc ∧ r.score = p.1)
        (searchOut.filter fun p => p.2 < (documents.length : Int)) rs := by
  obtain ⟨rs, hrs, hfa⟩ := retrieveFrom_forall₂ documents searchOut hidx
  refine ⟨rs, hrs, ?_, hfa⟩
  calc rs.length = (searchOut.filter fun p =>
          p.2 < (documents.length : Int)).length := hfa.length_eq.symm
    _ ≤ searchOut.length := List.length_filter_le _ _
    _ ≤ k := hk

/-- Updating the stored history of one key in the session map leaves
every other key's lookup unchanged. -/
theorem lookup_map_update (l : List (String × List Msg)) (s : String)
    (v : List Msg) (s2 : String) (hne : s2 ≠ s) :
    ((l.map fun p => if p.1 = s then (p.1, v) else p).find? fun p => p.1 = s2) =
      l.find? fun p => p.1 = s2 := by
  induction l with
  | nil => rfl
  | cons p rest ih =>
    rw [List.map_cons]
    by_cases hps : p.1 = s
    · have hp2 : ¬ p.1 = s2 := fun h => hne (h.symm.trans hps)
      rw [if_pos hps, List.find?_cons_of_neg _ (by simpa using hp2),
        List.find?_cons_of_neg _ (by simpa using hp2), ih]
    · rw [if_neg hps]
      by_cases hp2 : p.1 = s2
      · rw [List.find?_cons_of_pos _ (by simpa using hp2),
          List.find?_cons_of_pos _ (by simpa using hp2)]
      · rw [List.find?_cons_of_neg _ (by simpa using hp2),
          List.find?_cons_of_neg _ (by simpa using hp2), ih]

/-- Handling a chat request under an already-stored non-empty session id
rewrites that session's history and nothing else in the state. -/
theorem processChat_state_found (s : String) (q : String) (gen : GenOutcome)
    (st : ServerState) (h0 : List Msg) (hs : s ≠ "") (hl : lookupSession st s = some h0) :
    (processChat (some s) q gen st).2 =
      { st with sessions := st.sessions.map fun p : String × List Msg =>
          if p.1 = s then (p.1, (chatStep q gen h0).2) else p } := by
  unfold processChat getChatbotHistory writeHistory
  simp only [hl, if_pos hs]

/-- Handling a chat request under a fresh non-empty session id first
inserts the session with an empty history, then rewrites it. -/
theorem processChat_state_fresh (s : String) (q : String) (gen : GenOutcome)
    (st : ServerState) (hs : s ≠ "") (hl : lookupSession st s = none) :
    (processChat (some s) q gen st).2 =
      { st with sessions := (st.sessions ++ [(s, [])]).map fun p : String × List Msg =>
          if p.1 = s then (p.1, (chatStep q gen []).2) else p } := by
  unfold processChat getChatbotHistory writeHistory
  simp only [hl, if_pos hs]

/-- A server state with one stored session, used to exhibit the empty
session id corner case and to instantiate the frame theorem. -/
def oneSessionState : ServerState :=
  { defaultHistory := [], sessions := [("x", [])] }

/-- C6 is false as stated: the empty string is a well-typed session id
distinct from `"x"`, but `if session_id:` in `get_chatbot` is a Python
truthiness test, so a chat request carrying session id `""` is routed to
the default chatbot and (on a successful generation) mutates the default
chatbot's history, which the claim asserts is unchanged. -/
theorem processChat_empty_sid_hits_default :
    ("" : String) ≠ "x" ∧
    (processChat (some "") "q" (.ok "a") oneSessionState).2.defaultHistory ≠
      oneSessionState.defaultHistory ∧
    lookupSession (processChat (some "") "q" (.ok "a") oneSessionState).2 "x" =
      lookupSession oneSessionState "x" := by
  decide

/-- C6 (amended): for distinct session ids with the *processing* id
non-empty, handling a chat request under `s1` leaves `s2`'s stored history
and the default chatbot's history unchanged, and clearing session `s1`
leaves every other session's history and the default history unchanged.
(A request whose session id is the empty string is treated as session-less
by `get_chatbot`'s truthiness test and uses the default chatbot instead.) -/
theorem session_frame (s1 s2 : String) (query : String) (gen : GenOutcome)
    (st : ServerState) (hne : s2 ≠ s1) (h1 : s1 ≠ "") :
    (lookupSession (processChat (some s1) query gen st).2 s2 =
        lookupSession st s2 ∧
      (processChat (some s1) query gen st).2.defaultHistory =
        st.defaultHistory) ∧
    (lookupSession (clearSession s1 st) s2 = lookupSession st s2 ∧
      (clearSession s1 st).defaultHistory = st.defaultHistory) := by
  refine ⟨?_, ?_⟩
  · rcases hl : lookupSession st s1 with _ | h0
    · rw [processChat_state_fresh s1 query gen st h1 hl]
      refine ⟨?_, rfl⟩
      unfold lookupSession
      dsimp only
      rw [lookup_map_update _ s1 _ s2 hne, List.find?_append]
      have hnone : (([(s1, [])] : List (String × List Msg)).find? fun p => p.1 = s2) =
          none := by
        rw [List.find?_cons_of_neg _ (by simpa using fun h : s1 = s2 => hne h.symm)]
        rfl
      rw [hnone, Option.or_none]
    · rw [processChat_state_found s1 query gen st h0 h1 hl]
      refine ⟨?_, rfl⟩
      unfold lookupSession
      dsimp only
      rw [lookup_map_update _ s1 _ s2 hne]
  · unfold clearSession
    by_cases hs : (lookupSession st s1).isSome
    · rw [if_pos hs]
      refine ⟨?_, rfl⟩
      unfold lookupSession
      dsimp only
      rw [lookup_map_update _ s1 _ s2 hne]
    · rw [if_neg hs]
      exact ⟨rfl, rfl⟩

/-- `session_frame` instantiated on a concrete state and session ids. -/
theorem session_frame_witness :
    (lookupSession (processChat (some "a") "q" (.ok "r") oneSessionState).2 "x" =
        lookupSession oneSessionState "x" ∧
      (processChat (some "a") "q" (.ok "r") oneSessionState).2.defaultHistory =
        oneSessionState.defaultHistory) ∧
    (lookupSession (clearSession "a" oneSessionState) "x" =
        lookupSession oneSessionState "x" ∧
      (clearSession "a" oneSessionState).defaultHistory =
        oneSessionState.defaultHistory) :=
  session_frame "a" "x" "q" (.ok "r") oneSessionState (by decide) (by decide)

/-- Concrete metadata entries used to instantiate the retrieval theorems. -/
def sampleDocs : List DocMeta :=
  [{ content := "alpha", source := "d/a.txt", chunk_id := 0 },
   { content := "beta", source := "d/b.txt", chunk_id := 0 }]

/-- `retrieve_spec` instantiated: two stored entries, three returned
positions of which one is out of range and one is FAISS's `-1` padding. -/
theorem retrieve_spec_witness :
    ∃ rs, retrieveFrom sampleDocs [((5 : Int), (1 : Int)), ((3 : Int), (7 : Int)),
        ((2 : Int), (-1 : Int))] = some rs ∧
      rs.length ≤ 3 ∧
      List.Forall₂ (fun (p : Int × Int) (r : Retrieved Int) =>
          pyGet sampleDocs p.2 = some r.doc ∧ r.score = p.1)
        (([((5 : Int), (1 : Int)), ((3 : Int), (7 : Int)),
           ((2 : Int), (-1 : Int))]).filter fun p =>
            p.2 < (sampleDocs.length : Int)) rs :=
  retrieve_spec sampleDocs _ 3 (by decide) (by decide)

/-- `build_index_parallel` instantiated with a concrete embedding. -/
theorem build_index_parallel_witness :
    (build_index_core (fun s => s.length) (fun n => n + 1) sampleDocs).1.length =
      (build_index_core (fun s => s.length) (fun n => n + 1) sampleDocs).2.length ∧
    (∀ i (h1 : i < (build_index_core (fun s => s.length) (fun n => n + 1)
          sampleDocs).1.length)
       (h2 : i < (build_index_core (fun s => s.length) (fun n => n + 1)
          sampleDocs).2.length),
      (build_index_core (fun s => s.length) (fun n => n + 1) sampleDocs).1.get ⟨i, h1⟩ =
        (((build_index_core (fun s => s.length) (fun n => n + 1)
            sampleDocs).2.get ⟨i, h2⟩).content).length + 1) ∧
    (∀ idx : Int, 0 ≤ idx →
      idx < ((build_index_core (fun s => s.length) (fun n => n + 1)
          sampleDocs).1.length : Int) →
      ∃ d, pyGet (build_index_core (fun s => s.length) (fun n => n + 1)
          sampleDocs).2 idx = some d) :=
  build_index_parallel (fun s => s.length) (fun n => n + 1) sampleDocs

/-- `retrieverInit_error_iff` instantiated on an empty file system. -/
theorem retrieverInit_error_iff_witness :
    (∃ e, retrieverInit (fun _ => false) "app" (fun _ => (0 : Nat)) (fun _ => [])
        none none = .error e) ↔
      ((fun _ : String => false) (resolvedIndexPath (fun _ => false) "app" none) =
          false ∨
       (fun _ : String => false) (resolvedDocPath (fun _ => false) "app" none) =
          false) :=
  retrieverInit_error_iff (fun _ => false) "app" (fun _ => (0 : Nat)) (fun _ => [])
    none none

/-- `chatStep_history_update` instantiated at a concrete query and history. -/
theorem chatStep_history_update_witness :
    (∀ e, (∃ rest, (chatStep "hi" (.error e) []).1 =
              "Error generating response:" ++ rest) ∧
          (chatStep "hi" (.error e) []).2 = []) ∧
    (∀ answer, (chatStep "hi" (.ok answer) []).1 = answer ∧
          (chatStep "hi" (.ok answer) []).2 =
            [] ++ [{ role := "user", content := "hi" },
                   { role := "assistant", content := answer }]) :=
  chatStep_history_update "hi" []

/-- `String.intercalate.go` only ever appends to its accumulator. -/
theorem intercalate_go_extends (sep : String) (as : List String) :
    ∀ acc : String, ∃ t : String, String.intercalate.go acc sep as = acc ++ t := by
  induction as with
  | nil => exact fun acc => ⟨"", (String.append_empty acc).symm⟩
  | cons a as ih =>
    intro acc
    obtain ⟨t, ht⟩ := ih (acc ++ sep ++ a)
    refine ⟨sep ++ (a ++ t), ?_⟩
    show String.intercalate.go (acc ++ sep ++ a) sep as = _
    rw [ht]
    simp [String.append_assoc]

/-- `String.intercalate` of a non-empty list starts with its head. -/
theorem intercalate_cons_extends (sep x : String) (xs : List String) :
    ∃ t : String, String.intercalate sep (x :: xs) = x ++ t :=
  intercalate_go_extends sep xs x

/-- C7: `format_chat_history` returns `""` exactly on the empty history;
otherwise it newline-joins one line per message, for exactly the last
`min 6 (length history)` messages in order, each prefixed `"User: "` when
the role is `"user"` and `"Assistant: "` otherwise. -/
theorem format_chat_history_spec (history : List Msg) :
    (format_chat_history history = "" ↔ history = []) ∧
    (history.drop (history.length - 6)).length = min 6 history.length ∧
    (history ≠ [] →
      format_chat_history history = String.intercalate "\n"
        ((history.drop (history.length - 6)).map fun msg =>
          (if msg.role = "user" then "User: " else "Assistant: ") ++ msg.content)) := by
  refine ⟨⟨?_, ?_⟩, ?_, ?_⟩
  · intro hempty
    by_contra hne
    have hlen : 0 < history.length := List.length_pos.mpr hne
    have hdlen : 0 < (history.drop (history.length - 6)).length := by
      rw [List.length_drop]; omega
    obtain ⟨m, rest, hms⟩ :=
      List.exists_cons_of_ne_nil (List.ne_nil_of_length_pos hdlen)
    have hform : format_chat_history history = String.intercalate "\n"
        (((if m.role = "user" then "User: " else "Assistant: ") ++ m.content) ::
          rest.map fun msg =>
            (if msg.role = "user" then "User: " else "Assistant: ") ++ msg.content) := by
      unfold format_chat_history
      rw [if_neg hne, hms, List.map_cons]
    obtain ⟨t, ht⟩ := intercalate_cons_extends "\n" _
      (rest.map fun msg =>
        (if msg.role = "user" then "User: " else "Assistant: ") ++ msg.content)
    rw [hform, ht] at hempty
    have : (((if m.role = "user" then "User: " else "Assistant: ") ++ m.content) ++ t).length
        = 0 := by rw [hempty]; rfl
    rw [String.length_append, String.length_append] at this
    have h6 : 0 < (if m.role = "user" then "User: " else "Assistant: ").length := by
      by_cases hr : m.role = "user" <;> simp [hr] <;> decide
    omega
  · intro h; rw [h]; rfl
  · rw [List.length_drop]; omega
  · intro hne
    unfold format_chat_history
    rw [if_neg hne]


/-- `format_chat_history_spec` instantiated at a concrete two-message history. -/
theorem format_chat_history_spec_witness :
    (format_chat_history [{ role := "user", content := "hi" },
        { role := "assistant", content := "yo" }] = "" ↔
      ([{ role := "user", content := "hi" },
        { role := "assistant", content := "yo" }] : List Msg) = []) ∧
    (([{ role := "user", content := "hi" },
       { role := "assistant", content := "yo" }] : List Msg).drop
        (([{ role := "user", content := "hi" },
           { role := "assistant", content := "yo" }] : List Msg).length - 6)).length =
      min 6 ([{ role := "user", content := "hi" },
              { role := "assistant", content := "yo" }] : List Msg).length ∧
    (([{ role := "user", content := "hi" },
       { role := "assistant", content := "yo" }] : List Msg) ≠ [] →
      format_chat_history [{ role := "user", content := "hi" },
          { role := "assistant", content := "yo" }] = String.intercalate "\n"
        ((([{ role := "user", content := "hi" },
            { role := "assistant", content := "yo" }] : List Msg).drop
            (([{ role := "user", content := "hi" },
               { role := "assistant", content := "yo" }] : List Msg).length - 6)).map
          fun msg =>
            (if msg.role = "user" then "User: " else "Assistant: ") ++ msg.content)) :=
  format_chat_history_spec [{ role := "user", content := "hi" },
    { role := "assistant", content := "yo" }]

/-- A word at position `j` of `words`, with `i ≤ j < i + cs`, is a member
of the window `words[i:i+cs]`. -/
theorem mem_window (words : List String) (i j cs : Nat) (hij : i ≤ j)
    (hj : j < words.length) (hcs : j < i + cs) :
    words.get ⟨j, hj⟩ ∈ (words.drop i).take cs := by
  have h3 : j - i < ((words.drop i).take cs).length := by
    rw [List.length_take, List.length_drop]; omega
  have hget : ((words.drop i).take cs).get ⟨j - i, h3⟩ = words.get ⟨j, hj⟩ := by
    simp only [List.get_eq_getElem, List.getElem_take, List.getElem_drop]
    congr 1
    omega
  rw [← hget]
  exact List.get_mem _ _ _

/-- The chunk loop emits at least one chunk when started in range with
enough fuel. -/
theorem chunkLoop_ne_nil (words : List String) (cs step fuel i : Nat)
    (hi : i < words.length) (hfuel : words.length ≤ fuel + i) :
    chunkLoop words cs step fuel i ≠ [] := by
  cases fuel with
  | zero => omega
  | succ fuel =>
    show (if i < words.length then
        if words.length ≤ i + cs then [(words.drop i).take cs]
        else (words.drop i).take cs :: chunkLoop words cs step fuel (i + step)
      else []) ≠ []
    rw [if_pos hi]
    by_cases hbrk : words.length ≤ i + cs
    · rw [if_pos hbrk]; simp
    · rw [if_neg hbrk]; simp

/-- Chunk `m` of the loop started at `i` is the window beginning at
`i + m * step`. -/
theorem chunkLoop_getElem (words : List String) (cs step : Nat) :
    ∀ fuel i m (hm : m < (chunkLoop words cs step fuel i).length),
      (chunkLoop words cs step fuel i).get ⟨m, hm⟩ =
        (words.drop (i + m * step)).take cs := by
  intro fuel
  induction fuel with
  | zero => intro i m hm; simp [chunkLoop] at hm
  | succ fuel ih =>
    intro i m hm
    by_cases hi : i < words.length
    · by_cases hbrk : words.length ≤ i + cs
      · have heq : chunkLoop words cs step (fuel + 1) i = [(words.drop i).take cs] := by
          show (if i < words.length then _ else []) = _
          rw [if_pos hi, if_pos hbrk]
        have hm1 : m < 1 := by
          have := hm; rw [heq] at this; simpa using this
        have hm0 : m = 0 := by omega
        subst hm0
        simp [heq]
      · have heq : chunkLoop words cs step (fuel + 1) i =
            (words.drop i).take cs :: chunkLoop words cs step fuel (i + step) := by
          show (if i < words.length then _ else []) = _
          rw [if_pos hi, if_neg hbrk]
        cases m with
        | zero => simp [heq]
        | succ n =>
          have hmn : n < (chunkLoop words cs step fuel (i + step)).length := by
            have := hm; rw [heq] at this; simpa using this
          have := ih (i + step) n hmn
          calc (chunkLoop words cs step (fuel + 1) i).get ⟨n + 1, hm⟩
              = (chunkLoop words cs step fuel (i + step)).get ⟨n, hmn⟩ := by
                rw [List.get_of_eq heq]; rfl
            _ = (words.drop ((i + step) + n * step)).take cs := this
            _ = (words.drop (i + (n + 1) * step)).take cs := by
                congr 1; ring_nf
    · exfalso
      have heq : chunkLoop words cs step (fuel + 1) i = [] := by
        show (if i < words.length then _ else []) = _
        rw [if_neg hi]
      rw [heq] at hm
      simp at hm

/-- Every emitted chunk's start position is a position of `words`. -/
theorem chunkLoop_start_lt (words : List String) (cs step : Nat) :
    ∀ fuel i m (hm : m < (chunkLoop words cs step fuel i).length),
      i + m * step < words.length := by
  intro fuel
  induction fuel with
  | zero => intro i m hm; simp [chunkLoop] at hm
  | succ fuel ih =>
    intro i m hm
    by_cases hi : i < words.length
    · by_cases hbrk : words.length ≤ i + cs
      · have heq : chunkLoop words cs step (fuel + 1) i = [(words.drop i).take cs] := by
          show (if i < words.length then _ else []) = _
          rw [if_pos hi, if_pos hbrk]
        have hm0 : m = 0 := by
          have := hm; rw [heq] at this; simp at this; omega
        subst hm0; simpa using hi
      · have heq : chunkLoop words cs step (fuel + 1) i =
            (words.drop i).take cs :: chunkLoop words cs step fuel (i + step) := by
          show (if i < words.length then _ else []) = _
          rw [if_pos hi, if_neg hbrk]
        cases m with
        | zero => simpa using hi
        | succ n =>
          have hmn : n < (chunkLoop words cs step fuel (i + step)).length := by
            have := hm; rw [heq] at this; simpa using this
          have := ih (i + step) n hmn
          have harith : (i + step) + n * step = i + (n + 1) * step := by ring_nf
          omega
    · exfalso
      have heq : chunkLoop words cs step (fuel + 1) i = [] := by
        show (if i < words.length then _ else []) = _
        rw [if_neg hi]
      rw [heq] at hm; simp at hm

/-- Every emitted chunk holds at most `cs` words. -/
theorem chunkLoop_chunk_size (words : List String) (cs step : Nat) :
    ∀ fuel i, ∀ c ∈ chunkLoop words cs step fuel i, c.length ≤ cs := by
  intro fuel
  induction fuel with
  | zero => intro i c hc; simp [chunkLoop] at hc
  | succ fuel ih =>
    intro i c hc
    by_cases hi : i < words.length
    · by_cases hbrk : words.length ≤ i + cs
      · have heq : chunkLoop words cs step (fuel + 1) i = [(words.drop i).take cs] := by
          show (if i < words.length then _ else []) = _
          rw [if_pos hi, if_pos hbrk]
        rw [heq] at hc
        simp at hc
        subst hc
        rw [List.length_take]; omega
      · have heq : chunkLoop words cs step (fuel + 1) i =
            (words.drop i).take cs :: chunkLoop words cs step fuel (i + step) := by
          show (if i < words.length then _ else []) = _
          rw [if_pos hi, if_neg hbrk]
        rw [heq] at hc
        rcases List.mem_cons.mp hc with h | h
        · subst h; rw [List.length_take]; omega
        · exact ih (i + step) c h
    · exfalso
      have heq : chunkLoop words cs step (fuel + 1) i = [] := by
        show (if i < words.length then _ else []) = _
        rw [if_neg hi]
      rw [heq] at hc; simp at hc

/-- Every word position from `i` onwards is covered by some emitted chunk. -/
theorem chunkLoop_covers (words : List String) (cs step : Nat)
    (hstep : 0 < step) (hsc : step ≤ cs) :
    ∀ fuel i j (hfuel : words.length ≤ fuel + i) (hij : i ≤ j)
      (hj : j < words.length),
      ∃ c ∈ chunkLoop words cs step fuel i, words.get ⟨j, hj⟩ ∈ c := by
  intro fuel
  induction fuel with
  | zero => intro i j hfuel hij hj; omega
  | succ fuel ih =>
    intro i j hfuel hij hj
    have hi : i < words.length := by omega
    by_cases hbrk : words.length ≤ i + cs
    · have heq : chunkLoop words cs step (fuel + 1) i = [(words.drop i).take cs] := by
        show (if i < words.length then _ else []) = _
        rw [if_pos hi, if_pos hbrk]
      exact ⟨(words.drop i).take cs, by rw [heq]; simp,
        mem_window words i j cs hij hj (by omega)⟩
    · have heq : chunkLoop words cs step (fuel + 1) i =
          (words.drop i).take cs :: chunkLoop words cs step fuel (i + step) := by
        show (if i < words.length then _ else []) = _
        rw [if_pos hi, if_neg hbrk]
      by_cases hjc : j < i + cs
      · exact ⟨(words.drop i).take cs, by rw [heq]; simp,
          mem_window words i j cs hij hj hjc⟩
      · obtain ⟨c, hcmem, hwmem⟩ := ih (i + step) j (by omega) (by omega) hj
        exact ⟨c, by rw [heq]; exact List.mem_cons_of_mem _ hcmem, hwmem⟩

/-- C2: with `chunk_size > overlap ≥ 0`, `chunk_text` returns a non-empty
list of chunks; every word of the input occurs in at least one chunk's
word window, and no chunk holds more than `chunk_size` words. -/
theorem chunk_text_spec (text : String) (cs ov : Nat) (hov : ov < cs) :
    chunk_text text cs ov ≠ [] ∧
    (∀ w ∈ pySplit text, ∃ c ∈ chunk_text_words text cs ov, w ∈ c) ∧
    (∀ c ∈ chunk_text_words text cs ov, c.length ≤ cs) ∧
    chunk_text text cs ov = (chunk_text_words text cs ov).map (String.intercalate " ") := by
  have hwnil : chunk_text_words text cs ov ≠ [] := by
    unfold chunk_text_words
    by_cases hle : (pySplit text).length ≤ cs
    · rw [if_pos hle]; simp
    · rw [if_neg hle]
      exact chunkLoop_ne_nil (pySplit text) cs (cs - ov) (pySplit text).length 0
        (by omega) (by omega)
  refine ⟨?_, ?_, ?_, rfl⟩
  · unfold chunk_text
    simpa using hwnil
  · intro w hw
    obtain ⟨⟨j, hj⟩, hget⟩ := List.mem_iff_get.mp hw
    unfold chunk_text_words
    by_cases hle : (pySplit text).length ≤ cs
    · rw [if_pos hle]
      exact ⟨pySplit text, by simp, hw⟩
    · rw [if_neg hle]
      obtain ⟨c, hc, hm⟩ := chunkLoop_covers (pySplit text) cs (cs - ov)
        (by omega) (by omega) (pySplit text).length 0 j (by omega) (by omega) hj
      exact ⟨c, hc, hget ▸ hm⟩
  · intro c hc
    unfold chunk_text_words at hc
    by_cases hle : (pySplit text).length ≤ cs
    · rw [if_pos hle] at hc
      simp at hc
      subst hc
      omega
    · rw [if_neg hle] at hc
      exact chunkLoop_chunk_size (pySplit text) cs (cs - ov) (pySplit text).length 0 c hc

/-- C3: with `chunk_size > overlap > 0` and more than one chunk returned,
chunk `m` is the window starting exactly `m * (chunk_size - overlap)`
words into the input — so each chunk after the first starts
`chunk_size - overlap` words after the start of its predecessor — and any
two consecutive chunks share at least one word. -/
theorem chunk_text_overlap (text : String) (cs ov : Nat) (hov0 : 0 < ov)
    (hov : ov < cs) (hmulti : 1 < (chunk_text_words text cs ov).length) :
    (∀ m (hm : m < (chunk_text_words text cs ov).length),
      (chunk_text_words text cs ov).get ⟨m, hm⟩ =
        ((pySplit text).drop (m * (cs - ov))).take cs) ∧
    (∀ m (hm1 : m + 1 < (chunk_text_words text cs ov).length),
      ∃ w, w ∈ (chunk_text_words text cs ov).get ⟨m, by omega⟩ ∧
        w ∈ (chunk_text_words text cs ov).get ⟨m + 1, hm1⟩) ∧
    chunk_text text cs ov = (chunk_text_words text cs ov).map (String.intercalate " ") := by
  have hlen : ¬ (pySplit text).length ≤ cs := by
    intro hle
    have heq : chunk_text_words text cs ov = [pySplit text] := by
      unfold chunk_text_words; rw [if_pos hle]
    rw [heq] at hmulti
    simp at hmulti
  have hwords : chunk_text_words text cs ov =
      chunkLoop (pySplit text) cs (cs - ov) (pySplit text).length 0 := by
    unfold chunk_text_words; rw [if_neg hlen]
  have hGet : ∀ m (hm : m < (chunk_text_words text cs ov).length),
      (chunk_text_words text cs ov).get ⟨m, hm⟩ =
        ((pySplit text).drop (m * (cs - ov))).take cs := by
    intro m hm
    have hm' : m < (chunkLoop (pySplit text) cs (cs - ov)
        (pySplit text).length 0).length := by
      rw [← hwords]; exact hm
    have hstep := chunkLoop_getElem (pySplit text) cs (cs - ov)
      (pySplit text).length 0 m hm'
    rw [List.get_of_eq hwords]
    simpa using hstep
  refine ⟨hGet, ?_, rfl⟩
  intro m hm1
  have hm : m < (chunk_text_words text cs ov).length := by omega
  have hm1' : m + 1 < (chunkLoop (pySplit text) cs (cs - ov)
      (pySplit text).length 0).length := by
    rw [← hwords]; exact hm1
  have hlt : (m + 1) * (cs - ov) < (pySplit text).length := by
    have := chunkLoop_start_lt (pySplit text) cs (cs - ov)
      (pySplit text).length 0 (m + 1) hm1'
    simpa using this
  refine ⟨(pySplit text).get ⟨(m + 1) * (cs - ov), hlt⟩, ?_, ?_⟩
  · rw [hGet m hm]
    have harith : (m + 1) * (cs - ov) = m * (cs - ov) + (cs - ov) := by ring
    exact mem_window (pySplit text) (m * (cs - ov)) ((m + 1) * (cs - ov)) cs
      (by omega) hlt (by omega)
  · rw [hGet (m + 1) hm1]
    exact mem_window (pySplit text) ((m + 1) * (cs - ov)) ((m + 1) * (cs - ov)) cs
      (by omega) hlt (by omega)

/-- `chunk_text_spec` instantiated on a three-word text with
`chunk_size = 2`, `overlap = 1`. -/
theorem chunk_text_spec_witness :
    chunk_text "a b c" 2 1 ≠ [] ∧
    (∀ w ∈ pySplit "a b c", ∃ c ∈ chunk_text_words "a b c" 2 1, w ∈ c) ∧
    (∀ c ∈ chunk_text_words "a b c" 2 1, c.length ≤ 2) ∧
    chunk_text "a b c" 2 1 =
      (chunk_text_words "a b c" 2 1).map (String.intercalate " ") :=
  chunk_text_spec "a b c" 2 1 (by decide)

/-- `chunk_text_overlap` instantiated on a four-word text with
`chunk_size = 2`, `overlap = 1`, which yields four chunks. -/
theorem chunk_text_overlap_witness :
    (∀ m (hm : m < (chunk_text_words "a b c d" 2 1).length),
      (chunk_text_words "a b c d" 2 1).get ⟨m, hm⟩ =
        ((pySplit "a b c d").drop (m * (2 - 1))).take 2) ∧
    (∀ m (hm1 : m + 1 < (chunk_text_words "a b c d" 2 1).length),
      ∃ w, w ∈ (chunk_text_words "a b c d" 2 1).get ⟨m, by omega⟩ ∧
        w ∈ (chunk_text_words "a b c d" 2 1).get ⟨m + 1, hm1⟩) ∧
    chunk_text "a b c d" 2 1 =
      (chunk_text_words "a b c d" 2 1).map (String.intercalate " ") :=
  chunk_text_overlap "a b c d" 2 1 (by decide) (by decide) (by decide)

/-- Every entry produced for a file carries that file's path. -/
theorem fileEntries_source (path content : String) :
    ∀ d ∈ fileEntries path content, d.source = path := by
  intro d hd
  rw [fileEntries, List.mem_map] at hd
  obtain ⟨ic, _, hic⟩ := hd
  rw [← hic]

/-- The chunk ids of one file's entries are `0, 1, ...` in order. -/
theorem fileEntries_chunk_ids (path content : String) :
    (fileEntries path content).map (fun d => d.chunk_id) =
      List.range (chunk_text (clean_text content) 512 50).length := by
  rw [fileEntries, List.map_map]
  have hcomp : ((fun d : DocMeta => d.chunk_id) ∘ fun ic : Nat × String =>
      ({ content := ic.2, source := path, chunk_id := ic.1 } : DocMeta)) =
      Prod.fst := rfl
  rw [hcomp, List.enum_map_fst]

/-- Filtering a file's entries by its own path keeps them all. -/
theorem filter_fileEntries_self (path content : String) :
    (fileEntries path content).filter (fun d => d.source = path) =
      fileEntries path content := by
  rw [List.filter_eq_self]
  intro d hd
  simpa using fileEntries_source path content d hd

/-- Filtering a file's entries by a different path keeps none. -/
theorem filter_fileEntries_ne (path content target : String) (h : path ≠ target) :
    (fileEntries path content).filter (fun d => d.source = target) = [] := by
  rw [List.filter_eq_nil]
  intro d hd
  have := fileEntries_source path content d hd
  simp [this, h]

/-- `load_documents` processes the file list front to back. -/
theorem load_documents_cons (fc : String × String) (rest : List (String × String)) :
    load_documents (fc :: rest) = fileEntries fc.1 fc.2 ++ load_documents rest := by
  rw [load_documents, load_documents, List.flatMap_cons]

/-- No entry carries a path absent from the loaded file list. -/
theorem load_documents_filter_notin (target : String) :
    ∀ fs : List (String × String), target ∉ fs.map Prod.fst →
      (load_documents fs).filter (fun d => d.source = target) = [] := by
  intro fs
  induction fs with
  | nil => intro _; rfl
  | cons fc rest ih =>
    intro hnot
    have h1 : fc.1 ≠ target := by
      intro h
      exact hnot (by rw [List.map_cons, h]; exact List.mem_cons_self _ _)
    have h2 : target ∉ rest.map Prod.fst := by
      intro h
      exact hnot (by rw [List.map_cons]; exact List.mem_cons_of_mem _ h)
    rw [load_documents_cons, List.filter_append,
      filter_fileEntries_ne fc.1 fc.2 target h1, ih h2]
    rfl

/-- With distinct paths, the entries carrying a loaded file's path are
exactly that file's entries. -/
theorem load_documents_filter_self (target content₀ : String) :
    ∀ fs : List (String × String), (fs.map Prod.fst).Nodup →
      (target, content₀) ∈ fs →
      (load_documents fs).filter (fun d => d.source = target) =
        fileEntries target content₀ := by
  intro fs
  induction fs with
  | nil => intro _ h; simp at h
  | cons fc rest ih =>
    intro hnodup hmem
    rw [List.map_cons, List.nodup_cons] at hnodup
    rw [load_documents_cons, List.filter_append]
    rcases List.mem_cons.mp hmem with heq | hrest
    · subst heq
      rw [filter_fileEntries_self,
        load_documents_filter_notin target rest (by simpa using hnodup.1),
        List.append_nil]
    · have hne : fc.1 ≠ target := by
        intro h
        exact hnodup.1 (h ▸ List.mem_map.mpr ⟨(target, content₀), hrest, rfl⟩)
      rw [filter_fileEntries_ne fc.1 fc.2 target hne, ih hnodup.2 hrest]
      rfl

/-- Joining distinct names to the same directory gives distinct paths. -/
theorem pathJoin_injective (dir n1 n2 : String)
    (h : pathJoin dir n1 = pathJoin dir n2) : n1 = n2 := by
  unfold pathJoin at h
  have hd := congrArg String.data h
  rw [String.data_append, String.data_append,
    String.data_append, String.data_append] at hd
  have := List.append_cancel_left hd
  exact String.ext this


/-- C8: the index builder selects exactly the listed names ending in
`'.txt'`: every produced metadata entry's source is the data-directory
path of such a file; for each selected file the entries carrying its path
are exactly its full content cleaned, chunked, and enumerated; a
non-`'.txt'` name contributes no entry; and each file's chunk ids are
numbered `0, 1, ...`.  (Directory listings hold distinct names.) -/
theorem build_index_files (dataDir : String) (listing : List (String × String))
    (hnodup : (listing.map Prod.fst).Nodup) :
    (∀ d ∈ buildDocs dataDir listing, ∃ fc ∈ listing,
      fc.1.endsWith ".txt" = true ∧ d.source = pathJoin dataDir fc.1) ∧
    (∀ fc ∈ listing, fc.1.endsWith ".txt" = true →
      (buildDocs dataDir listing).filter
          (fun d => d.source = pathJoin dataDir fc.1) =
        fileEntries (pathJoin dataDir fc.1) fc.2) ∧
    (∀ fc ∈ listing, ¬ fc.1.endsWith ".txt" = true →
      (buildDocs dataDir listing).filter
          (fun d => d.source = pathJoin dataDir fc.1) = []) ∧
    (∀ path content, (fileEntries path content).map (fun d => d.chunk_id) =
      List.range (chunk_text (clean_text content) 512 50).length) := by
  have hnodup' : ((((listing.filter fun fc => fc.1.endsWith ".txt").map
      (fun fc => (pathJoin dataDir fc.1, fc.2)))).map Prod.fst).Nodup := by
    rw [List.map_map]
    have hcomp : (Prod.fst ∘ fun fc : String × String =>
        (pathJoin dataDir fc.1, fc.2)) =
        (pathJoin dataDir) ∘ Prod.fst := rfl
    rw [hcomp, ← List.map_map]
    exact List.Nodup.map (fun a b => pathJoin_injective dataDir a b)
      (hnodup.sublist ((List.filter_sublist _).map Prod.fst))
  refine ⟨?_, ?_, ?_, fileEntries_chunk_ids⟩
  · intro d hd
    rw [buildDocs, load_documents, List.mem_flatMap] at hd
    obtain ⟨fc', hfc', hdent⟩ := hd
    rw [List.mem_map] at hfc'
    obtain ⟨fc0, hfc0, rfl⟩ := hfc'
    rw [List.mem_filter] at hfc0
    exact ⟨fc0, hfc0.1, hfc0.2, fileEntries_source _ _ d hdent⟩
  · intro fc hmem htxt
    rw [buildDocs]
    exact load_documents_filter_self (pathJoin dataDir fc.1) fc.2 _ hnodup'
      (List.mem_map.mpr ⟨fc, List.mem_filter.mpr ⟨hmem, htxt⟩, rfl⟩)
  · intro fc hmem hntxt
    rw [buildDocs]
    apply load_documents_filter_notin
    intro hin
    rw [List.map_map, List.mem_map] at hin
    obtain ⟨fc0, hfc0, heq⟩ := hin
    rw [List.mem_filter] at hfc0
    have hfceq : fc0.1 = fc.1 := pathJoin_injective dataDir _ _ heq
    exact hntxt (hfceq ▸ hfc0.2)

/-- `build_index_files` instantiated on a two-file listing where only one
name ends in `'.txt'`. -/
theorem build_index_files_witness :
    (∀ d ∈ buildDocs "data" [("a.txt", "hello world"), ("b.md", "skip")],
      ∃ fc ∈ [("a.txt", "hello world"), ("b.md", "skip")],
        fc.1.endsWith ".txt" = true ∧ d.source = pathJoin "data" fc.1) ∧
    (∀ fc ∈ [("a.txt", "hello world"), ("b.md", "skip")],
      fc.1.endsWith ".txt" = true →
      (buildDocs "data" [("a.txt", "hello world"), ("b.md", "skip")]).filter
          (fun d => d.source = pathJoin "data" fc.1) =
        fileEntries (pathJoin "data" fc.1) fc.2) ∧
    (∀ fc ∈ [("a.txt", "hello world"), ("b.md", "skip")],
      ¬ fc.1.endsWith ".txt" = true →
      (buildDocs "data" [("a.txt", "hello world"), ("b.md", "skip")]).filter
          (fun d => d.source = pathJoin "data" fc.1) = []) ∧
    (∀ path content, (fileEntries path content).map (fun d => d.chunk_id) =
      List.range (chunk_text (clean_text content) 512 50).length) :=
  build_index_files "data" [("a.txt", "hello world"), ("b.md", "skip")] (by decide)

/-- After whitespace collapsing, the only whitespace character left is
the single space. -/
theorem collapseWsAux_space_eq :
    ∀ (l : List Char) (b : Bool) (c : Char), c ∈ collapseWsAux l b →
      pySpace c → c = ' ' := by
  intro l
  induction l with
  | nil => intro b c hc; simp [collapseWsAux] at hc
  | cons a as ih =>
    intro b c hc hsp
    by_cases ha : pySpace a
    · simp only [collapseWsAux, if_pos ha] at hc
      by_cases hb : b
      · rw [if_pos hb] at hc
        exact ih true c hc hsp
      · rw [if_neg hb] at hc
        rcases List.mem_cons.mp hc with h | h
        · exact h
        · exact ih true c h hsp
    · simp only [collapseWsAux, if_neg ha] at hc
      rcases List.mem_cons.mp hc with h | h
      · subst h; exact absurd hsp ha
      · exact ih false c h hsp

/-- Collapapsing introduces no character beyond the input and the space. -/
theorem collapseWsAux_mem :
    ∀ (l : List Char) (b : Bool) (c : Char), c ∈ collapseWsAux l b →
      c = ' ' ∨ c ∈ l := by
  intro l
  induction l with
  | nil => intro b c hc; simp [collapseWsAux] at hc
  | cons a as ih =>
    intro b c hc
    by_cases ha : pySpace a
    · simp only [collapseWsAux, if_pos ha] at hc
      by_cases hb : b
      · rw [if_pos hb] at hc
        rcases ih true c hc with h | h
        · exact Or.inl h
        · exact Or.inr (List.mem_cons_of_mem _ h)
      · rw [if_neg hb] at hc
        rcases List.mem_cons.mp hc with h | h
        · exact Or.inl h
        · rcases ih true c h with h' | h'
          · exact Or.inl h'
          · exact Or.inr (List.mem_cons_of_mem _ h')
    · simp only [collapseWsAux, if_neg ha] at hc
      rcases List.mem_cons.mp hc with h | h
      · exact Or.inr (h ▸ List.mem_cons_self _ _)
      · rcases ih false c h with h' | h'
        · exact Or.inl h'
        · exact Or.inr (List.mem_cons_of_mem _ h')

/-- No two adjacent whitespace characters. -/
def NoAdjWs (l : List Char) : Prop :=
  l.Chain' fun a b => ¬(pySpace a = true ∧ pySpace b = true)

/-- Whitespace collapsing leaves no two adjacent whitespace characters,
and (run from inside a whitespace run) starts with a non-space. -/
theorem collapseWsAux_chain :
    ∀ (l : List Char) (b : Bool),
      NoAdjWs (collapseWsAux l b) ∧
      (b = true → ∀ c, (collapseWsAux l b).head? = some c → pySpace c = false) := by
  intro l
  induction l with
  | nil => intro b; exact ⟨List.chain'_nil, fun _ c hc => by simp [collapseWsAux] at hc⟩
  | cons a as ih =>
    intro b
    by_cases ha : pySpace a
    · by_cases hb : b
      · subst hb
        simpa only [collapseWsAux, if_pos ha, if_pos rfl] using ih true
      · have hout : collapseWsAux (a :: as) b = ' ' :: collapseWsAux as true := by
          simp only [collapseWsAux, if_pos ha, if_neg hb]
        constructor
        · rw [hout]
          rw [NoAdjWs, List.chain'_cons']
          refine ⟨fun d hd => ?_, (ih true).1⟩
          intro hcontra
          have := (ih true).2 rfl d hd
          rw [this] at hcontra
          exact absurd hcontra.2 (by simp)
        · intro htrue
          exact absurd htrue hb
    · have hout : collapseWsAux (a :: as) b = a :: collapseWsAux as false := by
        simp only [collapseWsAux, if_neg ha]
      constructor
      · rw [hout, NoAdjWs, List.chain'_cons']
        refine ⟨fun d _ => ?_, (ih false).1⟩
        intro hcontra
        exact ha (by simpa using hcontra.1)
      · intro _ c hc
        rw [hout] at hc
        simp only [List.head?_cons, Option.some_inj] at hc
        subst hc
        simpa using ha


/-- What survives `dropWhile` does not start with a dropped element. -/
theorem dropWhile_head_not {α : Type} (p : α → Bool) :
    ∀ (l : List α) (c : α), (l.dropWhile p).head? = some c → p c = false := by
  intro l
  induction l with
  | nil => intro c hc; simp at hc
  | cons a as ih =>
    intro c hc
    by_cases ha : p a
    · rw [List.dropWhile_cons_of_pos ha] at hc
      exact ih c hc
    · rw [List.dropWhile_cons_of_neg ha] at hc
      simp only [List.head?_cons, Option.some_inj] at hc
      subst hc
      simpa using ha

/-- `dropWhile` does not touch the last element when anything survives. -/
theorem getLast?_dropWhile {α : Type} (p : α → Bool) :
    ∀ l : List α, l.dropWhile p ≠ [] → (l.dropWhile p).getLast? = l.getLast? := by
  intro l
  induction l with
  | nil => intro h; simp at h
  | cons a as ih =>
    intro hne
    by_cases ha : p a
    · rw [List.dropWhile_cons_of_pos ha] at hne ⊢
      have hasne : as ≠ [] := by
        intro h; subst h; simp at hne
      rw [ih hne]
      obtain ⟨b, t, hbt⟩ := List.exists_cons_of_ne_nil hasne
      subst hbt
      rw [List.getLast?_cons_cons]
    · rw [List.dropWhile_cons_of_neg ha]

/-- `dropWhile` is the identity when the head is not dropped. -/
theorem dropWhile_eq_self_of_head {α : Type} (p : α → Bool) (l : List α)
    (h : ∀ c, l.head? = some c → p c = false) : l.dropWhile p = l := by
  cases l with
  | nil => rfl
  | cons a as =>
    have := h a (by simp)
    rw [List.dropWhile_cons_of_neg (by simp [this])]

/-- A stripped string does not start with whitespace. -/
theorem pyStrip_head (l : List Char) :
    ∀ c, (pyStrip l).head? = some c → pySpace c = false := by
  intro c hc
  rw [pyStrip, List.head?_reverse] at hc
  have hne : (l.dropWhile pySpace).reverse.dropWhile pySpace ≠ [] := by
    intro h; rw [h] at hc; simp at hc
  rw [getLast?_dropWhile pySpace _ hne, List.getLast?_reverse] at hc
  exact dropWhile_head_not pySpace _ c hc

/-- A stripped string does not end with whitespace. -/
theorem pyStrip_getLast (l : List Char) :
    ∀ c, (pyStrip l).getLast? = some c → pySpace c = false := by
  intro c hc
  rw [pyStrip, List.getLast?_reverse] at hc
  exact dropWhile_head_not pySpace _ c hc

/-- Stripping only removes characters. -/
theorem pyStrip_mem (l : List Char) (c : Char) (hc : c ∈ pyStrip l) : c ∈ l := by
  rw [pyStrip, List.mem_reverse] at hc
  have h1 := (List.dropWhile_sublist (l := (l.dropWhile pySpace).reverse)
    (p := pySpace)).mem hc
  rw [List.mem_reverse] at h1
  exact (List.dropWhile_sublist (l := l) (p := pySpace)).mem h1

/-- `dropWhile` preserves chains of adjacent-element constraints. -/
theorem chain'_dropWhile {α : Type} (R : α → α → Prop) (p : α → Bool) :
    ∀ l : List α, l.Chain' R → (l.dropWhile p).Chain' R := by
  intro l
  induction l with
  | nil => intro h; exact h
  | cons a as ih =>
    intro h
    by_cases ha : p a
    · rw [List.dropWhile_cons_of_pos ha]
      exact ih h.tail
    · rw [List.dropWhile_cons_of_neg ha]
      exact h

/-- Stripping preserves the absence of adjacent whitespace. -/
theorem pyStrip_chain (l : List Char) (h : NoAdjWs l) : NoAdjWs (pyStrip l) := by
  have hsymm : ∀ m : List Char, NoAdjWs m → NoAdjWs m.reverse := by
    intro m hm
    rw [NoAdjWs, List.chain'_reverse]
    exact hm.imp fun a b hab hc => hab ⟨hc.2, hc.1⟩
  exact hsymm _ (chain'_dropWhile _ pySpace _ (hsymm _ (chain'_dropWhile _ pySpace _ h)))


/-- Whitespace collapsing fixes any list whose whitespace is single
spaces with no two adjacent. -/
theorem collapseWsAux_fixed :
    ∀ (l : List Char) (b : Bool),
      (∀ c ∈ l, pySpace c → c = ' ') → NoAdjWs l →
      (b = true → ∀ c, l.head? = some c → pySpace c = false) →
      collapseWsAux l b = l := by
  intro l
  induction l with
  | nil => intro b _ _ _; rfl
  | cons a as ih =>
    intro b hsp hchain hhead
    rw [NoAdjWs, List.chain'_cons'] at hchain
    by_cases ha : pySpace a
    · by_cases hb : b
      · exact absurd (hhead hb a (by simp)) (by simpa using ha)
      · have haeq : a = ' ' := hsp a (List.mem_cons_self _ _) ha
        have hrec : collapseWsAux as true = as := by
          apply ih true (fun c hc => hsp c (List.mem_cons_of_mem _ hc)) hchain.2
          intro _ c hc
          have := hchain.1 c hc
          by_contra hcsp
          exact this ⟨by simpa using ha, by simpa using hcsp⟩
        simp only [collapseWsAux, if_pos ha, if_neg hb, hrec, haeq]
        rw [if_pos (show pySpace ' ' = true by decide)]
    · have hrec : collapseWsAux as false = as := by
        apply ih false (fun c hc => hsp c (List.mem_cons_of_mem _ hc)) hchain.2
        intro hfalse
        exact absurd hfalse (by simp)
      simp only [collapseWsAux, if_neg ha, hrec]

/-- Stripping fixes a list that neither starts nor ends with
whitespace. -/
theorem pyStrip_of_stripped (w : List Char)
    (hhead : ∀ c, w.head? = some c → pySpace c = false)
    (hlast : ∀ c, w.getLast? = some c → pySpace c = false) :
    pyStrip w = w := by
  rw [pyStrip, dropWhile_eq_self_of_head pySpace w hhead,
    dropWhile_eq_self_of_head pySpace w.reverse
      (fun c hc => hlast c (by rwa [List.head?_reverse] at hc)),
    List.reverse_reverse]

/-- Every character of a cleaned string is a word character, a space, or
one of the kept punctuation marks. -/
theorem clean_text_chars (s : String) :
    ∀ c ∈ (clean_text s).data,
      isWordChar c = true ∨ c = ' ' ∨ punctChar c = true := by
  intro c hc
  have hc1 : c ∈ (collapseWs s.data).filter keptChar := pyStrip_mem _ c hc
  rw [List.mem_filter] at hc1
  have hkept := hc1.2
  rw [keptChar] at hkept
  rcases Bool.or_eq_true_iff.mp hkept with h | h
  · rcases Bool.or_eq_true_iff.mp h with h' | h'
    · exact Or.inl h'
    · exact Or.inr (Or.inl (collapseWsAux_space_eq _ false c hc1.1 h'))
  · exact Or.inr (Or.inr h)


/-- Among the characters a cleaned string may contain, the only
whitespace is the space. -/
theorem allowed_space_eq (c : Char)
    (hallow : isWordChar c = true ∨ c = ' ' ∨ punctChar c = true)
    (hsp : pySpace c = true) : c = ' ' := by
  have hcases : c = ' ' ∨ c = '\t' ∨ c = '\n' ∨ c = '\r' ∨ c = '\x0b' ∨ c = '\x0c' := by
    have := hsp
    simp only [pySpace, Bool.or_eq_true, beq_iff_eq] at this
    tauto
  rcases hallow with h | h | h
  · rcases hcases with rfl | rfl | rfl | rfl | rfl | rfl <;>
      first | rfl | exact absurd h (by decide)
  · exact h
  · rcases hcases with rfl | rfl | rfl | rfl | rfl | rfl <;>
      first | rfl | exact absurd h (by decide)

/-- Characters a cleaned string may contain survive the character
filter. -/
theorem kept_of_allowed (c : Char)
    (hallow : isWordChar c = true ∨ c = ' ' ∨ punctChar c = true) :
    keptChar c = true := by
  rcases hallow with h | h | h
  · simp [keptChar, h]
  · subst h; decide
  · simp [keptChar, h]

/-- On strings made of allowed characters, applying `clean_text` twice
changes nothing more than applying it once. -/
theorem clean_text_stable (t : String)
    (ht : ∀ c ∈ t.data, isWordChar c = true ∨ c = ' ' ∨ punctChar c = true) :
    clean_text (clean_text t) = clean_text t := by
  set u := clean_text t with hu_def
  have hfilter1 : (collapseWs t.data).filter keptChar = collapseWs t.data := by
    rw [List.filter_eq_self]
    intro c hc
    rcases collapseWsAux_mem t.data false c hc with h | h
    · subst h; decide
    · exact kept_of_allowed c (ht c h)
  have hu : u.data = pyStrip (collapseWs t.data) := by
    show pyStrip ((collapseWs t.data).filter keptChar) = _
    rw [hfilter1]
  have huchars : ∀ c ∈ u.data, isWordChar c = true ∨ c = ' ' ∨ punctChar c = true :=
    clean_text_chars t
  have hchain : NoAdjWs u.data := by
    rw [hu]
    exact pyStrip_chain _ (collapseWsAux_chain t.data false).1
  have hfilter2 : (collapseWs u.data).filter keptChar = collapseWs u.data := by
    rw [List.filter_eq_self]
    intro c hc
    rcases collapseWsAux_mem u.data false c hc with h | h
    · subst h; decide
    · exact kept_of_allowed c (huchars c h)
  have hcollapse : collapseWs u.data = u.data := by
    apply collapseWsAux_fixed u.data false _ hchain
    · intro hfalse; exact absurd hfalse (by simp)
    · intro c hc hsp
      exact allowed_space_eq c (huchars c hc) hsp
  have hstrip : pyStrip u.data = u.data := by
    apply pyStrip_of_stripped
    · intro c hc
      rw [hu] at hc
      exact pyStrip_head _ c hc
    · intro c hc
      rw [hu] at hc
      exact pyStrip_getLast _ c hc
  apply String.ext
  show pyStrip ((collapseWs u.data).filter keptChar) = u.data
  rw [hfilter2, hcollapse, hstrip]


/-- C10 is false as stated: removing a special character can merge two
whitespace runs, so `clean_text "a @ b"` is `"a  b"`, which has two
adjacent spaces; a second application collapses them, so `clean_text` is
not idempotent. -/
theorem clean_text_counterexample :
    clean_text "a @ b" = "a  b" ∧
    clean_text (clean_text "a @ b") ≠ clean_text "a @ b" := by
  decide

/-- C10 (amended): `clean_text`'s output has no leading or trailing
whitespace and contains only word characters, spaces and the punctuation
marks `. , ! ? ; :` — but adjacent spaces can survive (when a removed
character separated two whitespace runs) and a single application is not
idempotent; the two-fold application `clean_text ∘ clean_text` is
idempotent. -/
theorem clean_text_amended (s : String) :
    (∀ c ∈ (clean_text s).data,
      isWordChar c = true ∨ c = ' ' ∨ punctChar c = true) ∧
    (∀ c, (clean_text s).data.head? = some c → pySpace c = false) ∧
    (∀ c, (clean_text s).data.getLast? = some c → pySpace c = false) ∧
    clean_text (clean_text (clean_text s)) = clean_text (clean_text s) := by
  refine ⟨clean_text_chars s, ?_, ?_,
    clean_text_stable (clean_text s) (clean_text_chars s)⟩
  · intro c hc
    exact pyStrip_head ((collapseWs s.data).filter keptChar) c hc
  · intro c hc
    exact pyStrip_getLast ((collapseWs s.data).filter keptChar) c hc

/-- `clean_text_amended` instantiated at the counterexample input. -/
theorem clean_text_amended_witness :
    (∀ c ∈ (clean_text "a @ b").data,
      isWordChar c = true ∨ c = ' ' ∨ punctChar c = true) ∧
    (∀ c, (clean_text "a @ b").data.head? = some c → pySpace c = false) ∧
    (∀ c, (clean_text "a @ b").data.getLast? = some c → pySpace c = false) ∧
    clean_text (clean_text (clean_text "a @ b")) = clean_text (clean_text "a @ b") :=
  clean_text_amended "a @ b"

end RAGApp
